import Mathlib

/-!
Verification development for the hytopia-chess core: a shallow embedding of
the match state machine (game.ts), the search engine (ai.ts) and the server
handlers (index.ts).  The chess rules library (chess.js) is external to the
repository and is modelled as an abstract position oracle, exactly as the
specification treats it; the concrete laws the code relies on appear as
explicit hypotheses of the theorems below.
-/

set_option linter.unusedVariables false

/-! Basic enumerations, from types.ts. -/

inductive PlayerColor
  | w
  | b
deriving DecidableEq, Repr

/-- The opposite color; the source writes this inline as
a ternary on the string encoding. -/
def other : PlayerColor → PlayerColor
  | .w => .b
  | .b => .w

inductive Mode
  | solo
  | duo
deriving DecidableEq, Repr

inductive Difficulty
  | easy
  | medium
  | hard
deriving DecidableEq, Repr

/-! Moves.  JS strings are embedded as lists of characters so that the
slicing arithmetic of the source is fully explicit. -/

/-- A verbose move object as returned by the oracle's move generator
(chess.js moves with the verbose flag): from-square, to-square, optional
promotion letter, and whether the move captures. -/
structure VMove where
  mfrom : List Char
  mto : List Char
  promotion : Option Char
  captured : Bool
deriving DecidableEq, Repr

/-- The argument object passed to the oracle's move application
(the object literal built in applyMove from the uci slices). -/
structure MoveInput where
  mfrom : List Char
  mto : List Char
  promotion : Option Char
deriving DecidableEq, Repr

/-- A board occupant as returned by the oracle's board accessor. -/
structure Piece where
  ptype : Char
  pcolor : PlayerColor
deriving DecidableEq, Repr

/-- The position oracle (chess.js), external to the repository.  A value of
this structure packages the position type together with every query and
update the core calls on it. -/
structure Oracle where
  Pos : Type
  turn : Pos → PlayerColor
  legalMoves : Pos → List VMove
  tryMoveUci : Pos → MoveInput → Option (VMove × Pos)
  child : Pos → VMove → Pos
  undo : Pos → Pos
  board : Pos → List (List (Option Piece))
  isCheck : Pos → Bool
  isCheckmate : Pos → Bool
  isStalemate : Pos → Bool
  isDraw : Pos → Bool
  isThreefoldRepetition : Pos → Bool
  isInsufficientMaterial : Pos → Bool
  isGameOver : Pos → Bool
  fen : Pos → String
  ofFen : String → Pos
  initial : Pos

/-- Canonical move string: from-square + to-square + optional promotion
letter.  Source: move.from + move.to + (move.promotion ? move.promotion : ""). -/
def encodeMove (m : VMove) : List Char :=
  m.mfrom ++ m.mto ++ (match m.promotion with | some c => [c] | none => [])

/-- The uci slicing of applyMove: slice(0,2), slice(2,4), and
slice(4,5) turned into undefined when empty. -/
def parseUci (uci : List Char) : MoveInput :=
  { mfrom := uci.take 2, mto := (uci.drop 2).take 2, promotion := (uci.drop 4).head? }

/-! The search engine, from ai.ts. -/

/-- Scores with the two JS infinities used as alpha-beta sentinels. -/
abbrev EInt : Type := WithBot (WithTop ℤ)

/-- Embedding of a finite integer score into the sentinel-extended order. -/
def iE (z : ℤ) : EInt := ((z : WithTop ℤ) : EInt)

/-- PIECE_VALUES lookup with the source's default of 0 for unknown keys. -/
def PIECE_VALUES (t : Char) : ℤ :=
  if t = 'p' then 100
  else if t = 'n' then 320
  else if t = 'b' then 330
  else if t = 'r' then 500
  else if t = 'q' then 900
  else if t = 'k' then 0
  else 0

/-- Static evaluation: signed material over the board plus a mobility term
for the side to move (the count of generated moves). -/
def evaluate (O : Oracle) (chess : O.Pos) (forColor : PlayerColor) : ℤ :=
  let score := (O.board chess).foldl (fun acc row =>
    row.foldl (fun acc piece =>
      match piece with
      | none => acc
      | some piece =>
          acc + (if piece.pcolor = forColor then PIECE_VALUES piece.ptype
                 else -(PIECE_VALUES piece.ptype))) acc) 0
  let movesLen : ℤ := (O.legalMoves chess).length
  score + (if O.turn chess = forColor then movesLen else -movesLen)

/-- arr[Math.floor(Math.random() * arr.length)], with the random draw
modelled as an arbitrary natural reduced modulo the length. -/
def pickRandom {α : Type} (rnd : ℕ) (arr : List α) : Option α :=
  arr.get? (rnd % arr.length)

/-- The leaf case of minimax: checkmate is biased to plus or minus 100000 from
the maximizing side's perspective, every other terminal flag scores 0, and
otherwise the static evaluation is used. -/
def leafScore (O : Oracle) (p : O.Pos) (maximizingFor : PlayerColor) : EInt :=
  if O.isCheckmate p then
    (if other (O.turn p) = maximizingFor then iE 100000 else iE (-100000))
  else if O.isDraw p || O.isStalemate p || O.isThreefoldRepetition p
          || O.isInsufficientMaterial p then iE 0
  else iE (evaluate O p maximizingFor)

/-- The for-loop of minimax over the (shuffled) move list.  eval runs the
child search with the current window and returns its score and the position
it hands back; the explored move is undone before the cutoff test, so the
position is threaded exactly as the mutable chess object is in the source. -/
def abLoop (O : Oracle) (eval : O.Pos → EInt → EInt → EInt × O.Pos) (isMax : Bool) :
    List VMove → O.Pos → EInt → EInt → EInt → Option (List Char) →
    EInt × Option (List Char) × O.Pos
  | [], p, _alpha, _beta, best, bm => (best, bm, p)
  | m :: rest, p, alpha, beta, best, bm =>
      let c := O.child p m
      let r := eval c alpha beta
      let p2 := O.undo r.2
      let s := r.1
      if isMax then
        let best2 := if s > best then s else best
        let bm2 := if s > best then some (encodeMove m) else bm
        let alpha2 := max alpha best2
        if beta ≤ alpha2 then (best2, bm2, p2)
        else abLoop O eval isMax rest p2 alpha2 beta best2 bm2
      else
        let best2 := if s < best then s else best
        let bm2 := if s < best then some (encodeMove m) else bm
        let beta2 := min beta best2
        if beta2 ≤ alpha then (best2, bm2, p2)
        else abLoop O eval isMax rest p2 alpha beta2 best2 bm2

/-- Depth-bounded minimax with alpha-beta pruning, maximizing for the given
color, with the per-node randomized move ordering abstracted as the shuffle
parameter.  Returns the score, the best move found, and the position handed
back to the caller. -/
def minimax (O : Oracle) (shuffle : O.Pos → ℕ → List VMove → List VMove) :
    ℕ → O.Pos → EInt → EInt → PlayerColor → EInt × Option (List Char) × O.Pos
  | 0, p, _alpha, _beta, mf => (leafScore O p mf, none, p)
  | d+1, p, alpha, beta, mf =>
      if O.isGameOver p then (leafScore O p mf, none, p)
      else
        let moves := shuffle p (d+1) (O.legalMoves p)
        let isMax := decide (O.turn p = mf)
        abLoop O
          (fun q a b => ((minimax O shuffle d q a b mf).1, (minimax O shuffle d q a b mf).2.2))
          isMax moves p alpha beta (if isMax then (⊥ : EInt) else ⊤) none

/-- chooseAiMove: none on a terminal position or when it is not the engine
color's turn; easy picks a random capture when one exists, else a random
legal move; medium and hard run minimax at depth 2 and 3 with the full
window. -/
def chooseAiMove (O : Oracle) (shuffle : O.Pos → ℕ → List VMove → List VMove) (rnd : ℕ)
    (fen : String) (aiColor : PlayerColor) (difficulty : Difficulty) : Option (List Char) :=
  let chess := O.ofFen fen
  if O.isGameOver chess then none
  else if O.turn chess ≠ aiColor then none
  else
    match difficulty with
    | .easy =>
        let moves := O.legalMoves chess
        let captures := moves.filter (fun m => m.captured)
        (if captures.length ≠ 0 then pickRandom rnd captures else pickRandom rnd moves).map
          encodeMove
    | .medium => (minimax O shuffle 2 chess ⊥ ⊤ aiColor).2.1
    | .hard => (minimax O shuffle 3 chess ⊥ ⊤ aiColor).2.1

/-! The match state machine, from game.ts. -/

structure Seat where
  playerId : String
  color : PlayerColor
deriving DecidableEq, Repr

structure LobbySelection where
  mode : Mode
  difficulty : Difficulty
deriving DecidableEq, Repr

inductive Status
  | lobby
  | playing
  | ended
deriving DecidableEq, Repr

/-- ChessRoom: the aggregate match state.  The partial seats record becomes
two optional fields. -/
structure ChessRoom (O : Oracle) where
  id : String
  selection : LobbySelection
  seatW : Option Seat
  seatB : Option Seat
  chess : O.Pos
  status : Status
  winner : Option PlayerColor
  endReason : Option String
  lastMove : Option (List Char)

/-- room.seats[c]. -/
def ChessRoom.seats {O : Oracle} (room : ChessRoom O) : PlayerColor → Option Seat
  | .w => room.seatW
  | .b => room.seatB

def defaultSelection : LobbySelection := { mode := .solo, difficulty := .easy }

def createRoom (O : Oracle) (id : String) : ChessRoom O :=
  { id := id
    selection := defaultSelection
    seatW := none
    seatB := none
    chess := O.initial
    status := .lobby
    winner := none
    endReason := none
    lastMove := none }

structure SeatResult where
  ok : Bool
  color : Option PlayerColor
  reason : Option String
deriving DecidableEq, Repr

/-- assignSeat: idempotent early return for an already seated identity, then
the mode-specific assignment rules. -/
def assignSeat (O : Oracle) (room : ChessRoom O) (playerId : String) :
    SeatResult × ChessRoom O :=
  if room.seatW.map Seat.playerId = some playerId then (⟨true, some .w, none⟩, room)
  else if room.seatB.map Seat.playerId = some playerId then (⟨true, some .b, none⟩, room)
  else if room.selection.mode = .solo then
    if room.seatW.isSome ∧ room.seatW.map Seat.playerId ≠ some playerId then
      (⟨false, none, some "Room already has a solo player."⟩, room)
    else
      (⟨true, some .w, none⟩,
        { room with seatW := some ⟨playerId, .w⟩, seatB := some ⟨"AI", .b⟩ })
  else
    match room.seatW with
    | none => (⟨true, some .w, none⟩, { room with seatW := some ⟨playerId, .w⟩ })
    | some _ =>
      match room.seatB with
      | none => (⟨true, some .b, none⟩, { room with seatB := some ⟨playerId, .b⟩ })
      | some _ => (⟨false, none, some "Room full"⟩, room)

def canStart (O : Oracle) (room : ChessRoom O) : Bool :=
  if room.status ≠ .lobby then false
  else if room.selection.mode = .solo then room.seatW.isSome
  else room.seatW.isSome && room.seatB.isSome

/-- startGame: a fresh initial position, status playing, outcome fields
cleared.  The source performs no status check here; its only caller guards. -/
def startGame (O : Oracle) (room : ChessRoom O) : ChessRoom O :=
  { room with
    chess := O.initial
    status := .playing
    winner := none
    endReason := none
    lastMove := none }

/-- maybeFinalize: no-op on a non-terminal position; otherwise sets status
ended and classifies in priority order checkmate, stalemate, insufficient
material, threefold repetition, other draw. -/
def maybeFinalize (O : Oracle) (room : ChessRoom O) : ChessRoom O :=
  if !(O.isGameOver room.chess) then room
  else
    let room1 : ChessRoom O := { room with status := .ended }
    if O.isCheckmate room1.chess then
      { room1 with
        winner := some (other (O.turn room1.chess))
        endReason := some "checkmate" }
    else if O.isStalemate room1.chess then { room1 with endReason := some "stalemate" }
    else if O.isInsufficientMaterial room1.chess then
      { room1 with endReason := some "insufficient material" }
    else if O.isThreefoldRepetition room1.chess then
      { room1 with endReason := some "threefold repetition" }
    else if O.isDraw room1.chess then { room1 with endReason := some "draw" }
    else room1

structure MoveResult where
  ok : Bool
  reason : Option String
deriving DecidableEq, Repr

/-- applyMove: the status, seat and legality checks, then the human move,
finalization, and in solo mode the synchronous computer reply. -/
def applyMove (O : Oracle) (shuffle : O.Pos → ℕ → List VMove → List VMove) (rnd : ℕ)
    (room : ChessRoom O) (playerId : String) (uci : List Char) :
    MoveResult × ChessRoom O :=
  if room.status ≠ .playing then (⟨false, some "Not playing"⟩, room)
  else
    let inp := parseUci uci
    match room.seats (O.turn room.chess) with
    | none => (⟨false, some "Not your turn"⟩, room)
    | some seat =>
      if seat.playerId ≠ playerId then (⟨false, some "Not your turn"⟩, room)
      else
        match O.tryMoveUci room.chess inp with
        | none => (⟨false, some "Illegal move"⟩, room)
        | some (move, p1) =>
          let room1 : ChessRoom O :=
            { room with chess := p1, lastMove := some (encodeMove move) }
          let room2 := maybeFinalize O room1
          let room3 :=
            if room2.selection.mode = .solo ∧ room2.status = .playing then
              match chooseAiMove O shuffle rnd (O.fen room2.chess) .b
                  room2.selection.difficulty with
              | none => room2
              | some ai =>
                match O.tryMoveUci room2.chess (parseUci ai) with
                | none => room2
                | some (m2, p2) =>
                    maybeFinalize O
                      { room2 with chess := p2, lastMove := some (encodeMove m2) }
            else room2
          (⟨true, none⟩, room3)

/-! The server handlers around the room, from index.ts. -/

/-- The process-scope mutable state of index.ts: the room plus the players
and colors maps. -/
structure ServerState (O : Oracle) where
  room : ChessRoom O
  players : List String
  colors : List (String × PlayerColor)

/-- colors.get(pid). -/
def lookupColor (colors : List (String × PlayerColor)) (playerId : String) :
    Option PlayerColor :=
  (colors.find? (fun e => e.1 = playerId)).map (fun e => e.2)

/-- resetToLobby: back to the lobby with outcome, position, seats and colors
cleared; the players map is untouched. -/
def resetToLobby (O : Oracle) (st : ServerState O) : ServerState O :=
  { room := { st.room with
      status := .lobby
      winner := none
      endReason := none
      lastMove := none
      chess := O.initial
      seatW := none
      seatB := none }
    players := st.players
    colors := [] }

/-- The LEFT_WORLD handler: remove the player from both maps, end a playing
duo match with reason opponent disconnected, and reset a solo room once the
last player is gone. -/
def onLeftWorld (O : Oracle) (st : ServerState O) (playerId : String) : ServerState O :=
  let players := st.players.filter (fun p => p ≠ playerId)
  let colors := st.colors.filter (fun e => e.1 ≠ playerId)
  let room := st.room
  let room1 :=
    if room.selection.mode = .duo ∧ room.status = .playing then
      { room with
        status := .ended
        winner := none
        endReason := some "opponent disconnected" }
    else room
  let st1 : ServerState O := ⟨room1, players, colors⟩
  if st1.room.selection.mode = .solo ∧ st1.players.length = 0 then resetToLobby O st1
  else st1

/-- The lobby.start branch of the inbound message handler: dispatched only
while the room is in the lobby, restricted to White in duo mode, gated on
canStart, and only then invoking startGame. -/
def handleLobbyStart (O : Oracle) (st : ServerState O) (playerId : String) :
    ServerState O :=
  if st.room.status = .lobby then
    let yourColor := lookupColor st.colors playerId
    if st.room.selection.mode = .duo ∧ yourColor ≠ some .w then st
    else if !(canStart O st.room) then st
    else { st with room := startGame O st.room }
  else st

/-! A reference definition for the refinement claim about the search. -/

/-- Modelled from the spec: plain depth-bounded minimax without alpha-beta
pruning and without move reordering, used as the reference value that the
pruned search is compared against.  At a leaf it scores exactly as the
implementation does; at an inner node it folds max (for the maximizing
color) or min (for the opponent) over all children. -/
def plainMinimax (O : Oracle) : ℕ → O.Pos → PlayerColor → EInt
  | 0, p, mf => leafScore O p mf
  | d+1, p, mf =>
      if O.isGameOver p then leafScore O p mf
      else
        if O.turn p = mf then
          (O.legalMoves p).foldl
            (fun bacc m => max bacc (plainMinimax O d (O.child p m) mf)) ⊥
        else
          (O.legalMoves p).foldl
            (fun bacc m => min bacc (plainMinimax O d (O.child p m) mf)) ⊤

/-- The fail-soft alpha-beta window relation: a score r returned under the
window (alpha, beta) is exact when strictly inside the window, an upper
bound on the true value v when it fails low, and a lower bound when it
fails high. -/
def approxRel (alpha beta r v : EInt) : Prop :=
  (alpha < r → r ≤ v) ∧ (r < beta → v ≤ r)

/-! A small concrete oracle used to instantiate the theorems on explicit
inputs.  The game is a bounded counter: positions 0 and 1 each have exactly
one legal move stepping to the successor, position 2 is checkmate, and all
positions from 2 on are terminal. -/

def toyMove : ℕ → VMove
  | 0 => ⟨['a', '1'], ['a', '2'], none, false⟩
  | _ => ⟨['a', '7'], ['a', '5'], none, true⟩

def toyOracle : Oracle where
  Pos := ℕ
  turn n := if n % 2 = 0 then .w else .b
  legalMoves n := if 2 ≤ n then [] else [toyMove n]
  tryMoveUci n i :=
    if 2 ≤ n then none
    else if i = ⟨(toyMove n).mfrom, (toyMove n).mto, (toyMove n).promotion⟩ then
      some (toyMove n, n + 1)
    else none
  child n _ := n + 1
  undo n := n - 1
  board _ := []
  isCheck _ := false
  isCheckmate n := decide (n = 2)
  isStalemate _ := false
  isDraw _ := false
  isThreefoldRepetition _ := false
  isInsufficientMaterial _ := false
  isGameOver n := decide (2 ≤ n)
  fen n := String.mk (List.replicate n 'x')
  ofFen s := s.length
  initial := 0

/-- The identity move ordering, a legitimate instance of the shuffle
parameter. -/
def idShuffle (O : Oracle) : O.Pos → ℕ → List VMove → List VMove := fun _ _ l => l

/-- A solo room in mid-game over the toy oracle: human seated as White,
the computer sentinel as Black. -/
def soloRoom : ChessRoom toyOracle :=
  { id := "main"
    selection := { mode := .solo, difficulty := .easy }
    seatW := some ⟨"H", .w⟩
    seatB := some ⟨"AI", .b⟩
    chess := (0 : ℕ)
    status := .playing
    winner := none
    endReason := none
    lastMove := none }

/-- A room whose match has already ended, used for the startGame claims. -/
def endedRoom : ChessRoom toyOracle :=
  { id := "main"
    selection := { mode := .solo, difficulty := .easy }
    seatW := some ⟨"H", .w⟩
    seatB := some ⟨"AI", .b⟩
    chess := (2 : ℕ)
    status := .ended
    winner := some .b
    endReason := some "checkmate"
    lastMove := none }

/-- A playing duo room with two seated players and one spectator connected. -/
def duoRoom : ChessRoom toyOracle :=
  { id := "main"
    selection := { mode := .duo, difficulty := .easy }
    seatW := some ⟨"A", .w⟩
    seatB := some ⟨"B", .b⟩
    chess := (0 : ℕ)
    status := .playing
    winner := none
    endReason := none
    lastMove := none }

def duoState : ServerState toyOracle :=
  { room := duoRoom
    players := ["A", "B", "S"]
    colors := [("A", .w), ("B", .b)] }

/-! Helper lemmas about the basic functions of the embedding. -/

theorem parseUci_encodeMove (m : VMove) (hf : m.mfrom.length = 2) (ht : m.mto.length = 2) :
    parseUci (encodeMove m) = ⟨m.mfrom, m.mto, m.promotion⟩ := by
  obtain ⟨f, t, pr, cap⟩ := m
  simp only at hf ht
  obtain ⟨f1, f2, rfl⟩ := List.length_eq_two.mp hf
  obtain ⟨t1, t2, rfl⟩ := List.length_eq_two.mp ht
  cases pr <;> rfl

theorem bot_lt_iE (z : ℤ) : (⊥ : EInt) < iE z :=
  WithBot.bot_lt_coe _

theorem iE_lt_top (z : ℤ) : iE z < (⊤ : EInt) := by
  have h : ((⊤ : WithTop ℤ) : EInt) = ⊤ := rfl
  rw [← h]
  exact WithBot.coe_lt_coe.mpr (WithTop.coe_lt_top z)

theorem leafScore_fin (O : Oracle) (p : O.Pos) (mf : PlayerColor) :
    ∃ z : ℤ, leafScore O p mf = iE z := by
  unfold leafScore
  split
  · split
    · exact ⟨100000, rfl⟩
    · exact ⟨-100000, rfl⟩
  · split
    · exact ⟨0, rfl⟩
    · exact ⟨evaluate O p mf, rfl⟩

theorem foldl_max_acc {α : Type} (g : α → EInt) (l : List α) (b : EInt) :
    l.foldl (fun acc x => max acc (g x)) b
      = max b (l.foldl (fun acc x => max acc (g x)) ⊥) := by
  induction l generalizing b with
  | nil => simp
  | cons x xs ih =>
      simp only [List.foldl_cons]
      rw [ih, ih (max ⊥ (g x))]
      have hbot : max (⊥ : EInt) (g x) = g x := max_eq_right bot_le
      rw [hbot, max_assoc]

theorem foldl_min_acc {α : Type} (g : α → EInt) (l : List α) (b : EInt) :
    l.foldl (fun acc x => min acc (g x)) b
      = min b (l.foldl (fun acc x => min acc (g x)) ⊤) := by
  induction l generalizing b with
  | nil => simp
  | cons x xs ih =>
      simp only [List.foldl_cons]
      rw [ih, ih (min ⊤ (g x))]
      have htop : min (⊤ : EInt) (g x) = g x := min_eq_right le_top
      rw [htop, min_assoc]

theorem foldl_max_perm {α : Type} (g : α → EInt) {l1 l2 : List α} (h : l1.Perm l2)
    (b : EInt) :
    l1.foldl (fun acc x => max acc (g x)) b = l2.foldl (fun acc x => max acc (g x)) b := by
  refine h.foldl_eq' (fun x _ y _ z => ?_) b
  simp only [max_assoc]
  rw [max_comm (g x) (g y)]

theorem foldl_min_perm {α : Type} (g : α → EInt) {l1 l2 : List α} (h : l1.Perm l2)
    (b : EInt) :
    l1.foldl (fun acc x => min acc (g x)) b = l2.foldl (fun acc x => min acc (g x)) b := by
  refine h.foldl_eq' (fun x _ y _ z => ?_) b
  simp only [min_assoc]
  rw [min_comm (g x) (g y)]

/-! Laws of the toy oracle, used to discharge the oracle-contract hypotheses
of the theorems on concrete inputs. -/

theorem toy_undo_child : ∀ (p : ℕ) (m : VMove),
    toyOracle.undo (toyOracle.child p m) = p := by
  intro p m
  show p + 1 - 1 = p
  omega

theorem toy_ofFen_fen : ∀ p : ℕ, toyOracle.ofFen (toyOracle.fen p) = p := by
  intro p
  show (String.mk (List.replicate p 'x')).length = p
  simp [String.length]

theorem toy_moves_nil : ∀ p : ℕ,
    toyOracle.legalMoves p = [] → toyOracle.isGameOver p = true := by
  intro p h
  by_cases h2 : 2 ≤ p
  · simpa [toyOracle] using h2
  · simp [toyOracle, h2] at h

theorem toy_mem_legal {p : ℕ} {m : VMove}
    (hm : m ∈ toyOracle.legalMoves p) : p < 2 ∧ m = toyMove p := by
  by_cases h2 : 2 ≤ p
  · simp [toyOracle, h2] at hm
  · simp [toyOracle, h2] at hm
    exact ⟨by omega, hm⟩

theorem toy_tryMove_legal : ∀ (p : ℕ) (m : VMove),
    m ∈ toyOracle.legalMoves p →
      toyOracle.tryMoveUci p ⟨m.mfrom, m.mto, m.promotion⟩
        = some (m, toyOracle.child p m) := by
  intro p m hm
  obtain ⟨h2, rfl⟩ := toy_mem_legal hm
  have h2' : ¬ (2 ≤ p) := by omega
  simp [toyOracle, h2']

theorem toy_lengths : ∀ (p : ℕ) (m : VMove),
    m ∈ toyOracle.legalMoves p → m.mfrom.length = 2 ∧ m.mto.length = 2 := by
  intro p m hm
  obtain ⟨_, rfl⟩ := toy_mem_legal hm
  match p with
  | 0 => exact ⟨rfl, rfl⟩
  | n + 1 => exact ⟨rfl, rfl⟩

theorem toy_turn_flip : ∀ (p : ℕ) (i : MoveInput) (mv : VMove)
    (q : ℕ), toyOracle.tryMoveUci p i = some (mv, q) →
      toyOracle.turn q = other (toyOracle.turn p) := by
  intro p i mv q h
  have hq : q = p + 1 := by
    by_cases h2 : 2 ≤ p
    · simp [toyOracle, h2] at h
    · by_cases he : i = ⟨(toyMove p).mfrom, (toyMove p).mto, (toyMove p).promotion⟩
      · simp [toyOracle, h2, he] at h
        omega
      · simp [toyOracle, h2, he] at h
  subst hq
  show (if (p + 1) % 2 = 0 then PlayerColor.w else PlayerColor.b)
      = other (if p % 2 = 0 then PlayerColor.w else PlayerColor.b)
  by_cases hp : p % 2 = 0
  · have h1 : ¬ ((p + 1) % 2 = 0) := by omega
    simp [hp, h1, other]
  · have h1 : (p + 1) % 2 = 0 := by omega
    simp [hp, h1, other]

/-! The move/undo discipline: the search hands back exactly the position it
was given, on every exit path including the pruning breaks. -/

theorem abLoop_pos (O : Oracle) (eval : O.Pos → EInt → EInt → EInt × O.Pos)
    (isMax : Bool)
    (heval : ∀ q a b, (eval q a b).2 = q)
    (hund : ∀ p m, O.undo (O.child p m) = p) :
    ∀ (ms : List VMove) (p : O.Pos) (alpha beta best : EInt) (bm : Option (List Char)),
      (abLoop O eval isMax ms p alpha beta best bm).2.2 = p := by
  intro ms
  induction ms with
  | nil => intro p alpha beta best bm; rfl
  | cons m rest ih =>
      intro p alpha beta best bm
      simp only [abLoop, heval, hund]
      cases isMax
      · simp only [Bool.false_eq_true, if_false]
        split <;> split <;> first | rfl | exact ih p _ _ _ _
      · simp only [if_true]
        split <;> split <;> first | rfl | exact ih p _ _ _ _

theorem minimax_pos (O : Oracle) (shuffle : O.Pos → ℕ → List VMove → List VMove)
    (hund : ∀ p m, O.undo (O.child p m) = p) :
    ∀ (d : ℕ) (p : O.Pos) (alpha beta : EInt) (mf : PlayerColor),
      (minimax O shuffle d p alpha beta mf).2.2 = p := by
  intro d
  induction d with
  | zero => intro p alpha beta mf; rfl
  | succ d ih =>
      intro p alpha beta mf
      simp only [minimax]
      split
      · rfl
      · exact abLoop_pos O _ _ (fun q a b => ih q a b mf) hund _ p _ _ _ _

/-! Finiteness of scores and presence of a best move. -/

theorem abLoop_fin (O : Oracle) (eval : O.Pos → EInt → EInt → EInt × O.Pos) (isMax : Bool)
    (hfin : ∀ q a b, ∃ z : ℤ, (eval q a b).1 = iE z) :
    ∀ (ms : List VMove) (p : O.Pos) (alpha beta best : EInt) (bm : Option (List Char))
      (z0 : ℤ), best = iE z0 →
      ∃ z : ℤ, (abLoop O eval isMax ms p alpha beta best bm).1 = iE z := by
  intro ms
  induction ms with
  | nil => intro p alpha beta best bm z0 h; exact ⟨z0, h⟩
  | cons m rest ih =>
      intro p alpha beta best bm z0 hb
      obtain ⟨z1, hz1⟩ := hfin (O.child p m) alpha beta
      simp only [abLoop]
      cases isMax
      · simp only [Bool.false_eq_true, if_false]
        split <;> split
        · exact ⟨z1, hz1⟩
        · exact ih _ _ _ _ _ z1 hz1
        · exact ⟨z0, hb⟩
        · exact ih _ _ _ _ _ z0 hb
      · simp only [if_true]
        split <;> split
        · exact ⟨z1, hz1⟩
        · exact ih _ _ _ _ _ z1 hz1
        · exact ⟨z0, hb⟩
        · exact ih _ _ _ _ _ z0 hb

theorem abLoop_fin_start (O : Oracle) (eval : O.Pos → EInt → EInt → EInt × O.Pos)
    (hfin : ∀ q a b, ∃ z : ℤ, (eval q a b).1 = iE z) :
    ∀ (isMax : Bool) (m : VMove) (rest : List VMove) (p : O.Pos) (alpha beta : EInt)
      (bm : Option (List Char)),
      ∃ z : ℤ, (abLoop O eval isMax (m :: rest) p alpha beta
        (if isMax = true then ⊥ else ⊤) bm).1 = iE z := by
  intro isMax m rest p alpha beta bm
  obtain ⟨z1, hz1⟩ := hfin (O.child p m) alpha beta
  cases isMax
  · have hlt : (eval (O.child p m) alpha beta).1 < ⊤ := by rw [hz1]; exact iE_lt_top z1
    simp only [abLoop, Bool.false_eq_true, if_false, hlt, if_true]
    split
    · exact ⟨z1, hz1⟩
    · exact abLoop_fin O eval false hfin rest _ _ _ _ _ z1 hz1
  · have hlt : (⊥ : EInt) < (eval (O.child p m) alpha beta).1 := by
      rw [hz1]; exact bot_lt_iE z1
    simp only [abLoop, if_true, gt_iff_lt, hlt]
    split
    · exact ⟨z1, hz1⟩
    · exact abLoop_fin O eval true hfin rest _ _ _ _ _ z1 hz1

theorem minimax_fin (O : Oracle) (shuffle : O.Pos → ℕ → List VMove → List VMove)
    (hmn : ∀ p, O.legalMoves p = [] → O.isGameOver p = true)
    (hsh : ∀ p d l, (shuffle p d l).Perm l) :
    ∀ (d : ℕ) (p : O.Pos) (alpha beta : EInt) (mf : PlayerColor),
      ∃ z : ℤ, (minimax O shuffle d p alpha beta mf).1 = iE z := by
  intro d
  induction d with
  | zero => intro p alpha beta mf; exact leafScore_fin O p mf
  | succ d ih =>
      intro p alpha beta mf
      simp only [minimax]
      split
      · exact leafScore_fin O p mf
      · rename_i hgo
        have hne : O.legalMoves p ≠ [] := by
          intro h
          exact hgo (by rw [hmn p h])
        obtain ⟨m, rest, hms⟩ : ∃ m rest, shuffle p (d+1) (O.legalMoves p) = m :: rest := by
          cases hc : shuffle p (d+1) (O.legalMoves p) with
          | nil =>
              exfalso
              apply hne
              have := (hsh p (d+1) (O.legalMoves p)).length_eq
              rw [hc] at this
              exact List.length_eq_zero.mp this.symm
          | cons a l => exact ⟨a, l, rfl⟩
        rw [hms]
        exact abLoop_fin_start O _ (fun q a b => ih q a b mf) _ m rest p alpha beta none

theorem abLoop_bm_mem (O : Oracle) (eval : O.Pos → EInt → EInt → EInt × O.Pos)
    (isMax : Bool) :
    ∀ (ms : List VMove) (p : O.Pos) (alpha beta best : EInt) (bm : Option (List Char)),
      (abLoop O eval isMax ms p alpha beta best bm).2.1 = bm
      ∨ ∃ m ∈ ms, (abLoop O eval isMax ms p alpha beta best bm).2.1
          = some (encodeMove m) := by
  intro ms
  induction ms with
  | nil => intro p alpha beta best bm; left; rfl
  | cons m rest ih =>
      intro p alpha beta best bm
      simp only [abLoop]
      cases isMax
      · simp only [Bool.false_eq_true, if_false]
        split <;> split
        · exact Or.inr ⟨m, List.mem_cons_self m rest, rfl⟩
        · rcases ih _ alpha _ _ (some (encodeMove m)) with h | ⟨m', hm', h⟩
          · exact Or.inr ⟨m, List.mem_cons_self m rest, h⟩
          · exact Or.inr ⟨m', List.mem_cons_of_mem m hm', h⟩
        · exact Or.inl rfl
        · rcases ih _ alpha _ _ bm with h | ⟨m', hm', h⟩
          · exact Or.inl h
          · exact Or.inr ⟨m', List.mem_cons_of_mem m hm', h⟩
      · simp only [if_true]
        split <;> split
        · exact Or.inr ⟨m, List.mem_cons_self m rest, rfl⟩
        · rcases ih _ _ beta _ (some (encodeMove m)) with h | ⟨m', hm', h⟩
          · exact Or.inr ⟨m, List.mem_cons_self m rest, h⟩
          · exact Or.inr ⟨m', List.mem_cons_of_mem m hm', h⟩
        · exact Or.inl rfl
        · rcases ih _ _ beta _ bm with h | ⟨m', hm', h⟩
          · exact Or.inl h
          · exact Or.inr ⟨m', List.mem_cons_of_mem m hm', h⟩

theorem abLoop_root_some (O : Oracle) (eval : O.Pos → EInt → EInt → EInt × O.Pos)
    (hfin : ∀ q a b, ∃ z : ℤ, (eval q a b).1 = iE z) :
    ∀ (m : VMove) (rest : List VMove) (p : O.Pos) (alpha beta : EInt),
      ∃ y, (abLoop O eval true (m :: rest) p alpha beta ⊥ none).2.1 = some y := by
  intro m rest p alpha beta
  obtain ⟨z1, hz1⟩ := hfin (O.child p m) alpha beta
  have hlt : (⊥ : EInt) < (eval (O.child p m) alpha beta).1 := by
    rw [hz1]; exact bot_lt_iE z1
  simp only [abLoop, if_true, gt_iff_lt, hlt]
  split
  · exact ⟨encodeMove m, rfl⟩
  · rcases abLoop_bm_mem O eval true rest _ _ _ _ (some (encodeMove m)) with h | ⟨m', _, h⟩
    · exact ⟨encodeMove m, h⟩
    · exact ⟨encodeMove m', h⟩

theorem minimax_root_some_mem (O : Oracle) (shuffle : O.Pos → ℕ → List VMove → List VMove)
    (hmn : ∀ p, O.legalMoves p = [] → O.isGameOver p = true)
    (hsh : ∀ p d l, (shuffle p d l).Perm l)
    (d : ℕ) (p : O.Pos) (alpha beta : EInt) (mf : PlayerColor)
    (hgo : O.isGameOver p = false) (ht : O.turn p = mf) :
    ∃ m ∈ O.legalMoves p,
      (minimax O shuffle (d+1) p alpha beta mf).2.1 = some (encodeMove m) := by
  have hne : O.legalMoves p ≠ [] := by
    intro h
    rw [hmn p h] at hgo
    cases hgo
  obtain ⟨m, rest, hms⟩ : ∃ m rest, shuffle p (d+1) (O.legalMoves p) = m :: rest := by
    cases hc : shuffle p (d+1) (O.legalMoves p) with
    | nil =>
        exfalso
        apply hne
        have hl := (hsh p (d+1) (O.legalMoves p)).length_eq
        rw [hc] at hl
        exact List.length_eq_zero.mp hl.symm
    | cons a l => exact ⟨a, l, rfl⟩
  simp only [minimax, hgo, Bool.false_eq_true, if_false, ht, decide_True, if_true, hms]
  obtain ⟨y, hy⟩ := abLoop_root_some O
    (fun q a b => ((minimax O shuffle d q a b mf).1, (minimax O shuffle d q a b mf).2.2))
    (fun q a b => minimax_fin O shuffle hmn hsh d q a b mf) m rest p alpha beta
  rcases abLoop_bm_mem O
      (fun q a b => ((minimax O shuffle d q a b mf).1, (minimax O shuffle d q a b mf).2.2))
      true (m :: rest) p alpha beta ⊥ none with h | ⟨m', hm', h⟩
  · rw [h] at hy
    cases hy
  · refine ⟨m', ?_, h⟩
    have hsub := (hsh p (d+1) (O.legalMoves p)).subset
    rw [hms] at hsub
    exact hsub hm'

theorem pickRandom_mem_some {α : Type} (rnd : ℕ) (arr : List α) (hne : arr ≠ []) :
    ∃ x ∈ arr, pickRandom rnd arr = some x := by
  have hpos : 0 < arr.length := List.length_pos.mpr hne
  have hlt : rnd % arr.length < arr.length := Nat.mod_lt _ hpos
  refine ⟨arr.get ⟨rnd % arr.length, hlt⟩, arr.get_mem _ _, ?_⟩
  simp [pickRandom, List.get?_eq_get hlt]

theorem chooseAiMove_some_mem (O : Oracle) (shuffle : O.Pos → ℕ → List VMove → List VMove)
    (rnd : ℕ) (f : String) (c : PlayerColor) (difficulty : Difficulty)
    (hmn : ∀ p, O.legalMoves p = [] → O.isGameOver p = true)
    (hsh : ∀ p d l, (shuffle p d l).Perm l)
    (hgo : O.isGameOver (O.ofFen f) = false) (ht : O.turn (O.ofFen f) = c) :
    ∃ m ∈ O.legalMoves (O.ofFen f),
      chooseAiMove O shuffle rnd f c difficulty = some (encodeMove m) := by
  have hne : O.legalMoves (O.ofFen f) ≠ [] := by
    intro h
    rw [hmn _ h] at hgo
    cases hgo
  unfold chooseAiMove
  simp only [hgo, Bool.false_eq_true, if_false, ht, ne_eq, not_true_eq_false]
  cases difficulty
  · by_cases hc : ((O.legalMoves (O.ofFen f)).filter (fun m => m.captured)).length ≠ 0
    · have hcne : (O.legalMoves (O.ofFen f)).filter (fun m => m.captured) ≠ [] := by
        intro h
        rw [h] at hc
        exact hc rfl
      obtain ⟨x, hx, hpick⟩ := pickRandom_mem_some rnd _ hcne
      refine ⟨x, List.mem_of_mem_filter hx, ?_⟩
      rw [if_pos hc, hpick]
      rfl
    · obtain ⟨x, hx, hpick⟩ := pickRandom_mem_some rnd _ hne
      refine ⟨x, hx, ?_⟩
      rw [if_neg hc, hpick]
      rfl
  · exact minimax_root_some_mem O shuffle hmn hsh 1 (O.ofFen f) ⊥ ⊤ c hgo ht
  · exact minimax_root_some_mem O shuffle hmn hsh 2 (O.ofFen f) ⊥ ⊤ c hgo ht

/-! Alpha-beta correctness: the pruned search is related to the plain
minimax value through the fail-soft window relation. -/

theorem approxRel_of_eq {alpha beta r v : EInt} (h : r = v) : approxRel alpha beta r v :=
  ⟨fun _ => h.le, fun _ => h.ge⟩

theorem abLoop_max_approx (O : Oracle) (eval : O.Pos → EInt → EInt → EInt × O.Pos)
    (p : O.Pos) (g : VMove → EInt)
    (heval : ∀ q a b, (eval q a b).2 = q)
    (hund : ∀ q m, O.undo (O.child q m) = q)
    (hch : ∀ (m : VMove) (a b : EInt), a < b →
      approxRel a b (eval (O.child p m) a b).1 (g m)) :
    ∀ (ms : List VMove) (alpha beta best : EInt) (bm : Option (List Char)),
      best ≤ alpha → alpha < beta →
      best ≤ (abLoop O eval true ms p alpha beta best bm).1 ∧
      approxRel alpha beta (abLoop O eval true ms p alpha beta best bm).1
        (ms.foldl (fun acc m => max acc (g m)) best) := by
  intro ms
  induction ms with
  | nil =>
      intro alpha beta best bm hba hab
      exact ⟨le_refl _, approxRel_of_eq rfl⟩
  | cons m rest ih =>
      intro alpha beta best bm hba hab
      obtain ⟨hc1, hc2⟩ := hch m alpha beta hab
      simp only [abLoop, heval, hund, if_true, List.foldl_cons]
      set s := (eval (O.child p m) alpha beta).1 with hs
      set w := g m with hw
      rw [foldl_max_acc]
      set P := rest.foldl (fun acc x => max acc (g x)) ⊥ with hP
      by_cases hgt : s > best
      · simp only [hgt, if_true]
        by_cases hcut : beta ≤ alpha ⊔ s
        · simp only [hcut, if_true]
          refine ⟨le_of_lt hgt, ?_, ?_⟩
          · intro h1
            exact le_trans (hc1 h1) (le_trans le_sup_right le_sup_left)
          · intro h2
            rcases le_sup_iff.mp hcut with h3 | h3
            · exact absurd h3 hab.not_le
            · exact absurd h3 h2.not_le
        · simp only [hcut, if_false]
          have hab2 : alpha ⊔ s < beta := not_le.mp hcut
          obtain ⟨hb2, hrel2⟩ := ih (alpha ⊔ s) beta s (some (encodeMove m)) le_sup_right hab2
          rw [foldl_max_acc] at hrel2
          refine ⟨le_trans (le_of_lt hgt) hb2, ?_, ?_⟩
          · intro h1
            have key : (abLoop O eval true rest p (alpha ⊔ s) beta s
                (some (encodeMove m))).1 ≤ s →
                (abLoop O eval true rest p (alpha ⊔ s) beta s
                  (some (encodeMove m))).1 ≤ (best ⊔ w) ⊔ P := by
              intro hle
              have hrs : (abLoop O eval true rest p (alpha ⊔ s) beta s
                  (some (encodeMove m))).1 = s := le_antisymm hle hb2
              have hsw : s ≤ w := hc1 (hrs ▸ h1)
              rw [hrs]
              exact le_trans hsw (le_trans le_sup_right le_sup_left)
            by_cases h2 : alpha ⊔ s < (abLoop O eval true rest p (alpha ⊔ s) beta s
                (some (encodeMove m))).1
            · have hr := hrel2.1 h2
              rcases le_sup_iff.mp hr with h3 | h3
              · exact key h3
              · exact le_trans h3 le_sup_right
            · rcases le_sup_iff.mp (not_lt.mp h2) with h3 | h3
              · exact absurd (h1.trans_le h3) (lt_irrefl alpha)
              · exact key h3
          · intro h2
            have hr := hrel2.2 h2
            rcases sup_le_iff.mp hr with ⟨h3, h4⟩
            have hsr : s ≤ (abLoop O eval true rest p (alpha ⊔ s) beta s
                (some (encodeMove m))).1 := hb2
            refine sup_le (sup_le ?_ ?_) h4
            · exact le_trans (le_of_lt hgt) hsr
            · exact le_trans (hc2 (lt_of_le_of_lt hsr h2)) hsr
      · simp only [hgt, if_false]
        have hsb : s ≤ best := not_lt.mp hgt
        by_cases hcut : beta ≤ alpha ⊔ best
        · simp only [hcut, if_true]
          refine ⟨le_refl best, ?_, ?_⟩
          · intro h1
            exact absurd (h1.trans_le hba) (lt_irrefl alpha)
          · intro h2
            rcases le_sup_iff.mp hcut with h3 | h3
            · exact absurd h3 hab.not_le
            · exact absurd h3 h2.not_le
        · simp only [hcut, if_false]
          have heqa : alpha ⊔ best = alpha := sup_eq_left.mpr hba
          rw [heqa]
          obtain ⟨hb2, hrel2⟩ := ih alpha beta best bm hba hab
          rw [foldl_max_acc] at hrel2
          refine ⟨hb2, ?_, ?_⟩
          · intro h1
            have hr := hrel2.1 h1
            rcases le_sup_iff.mp hr with h3 | h3
            · exact absurd ((h1.trans_le h3).trans_le hba) (lt_irrefl alpha)
            · exact le_trans h3 le_sup_right
          · intro h2
            have hr := hrel2.2 h2
            rcases sup_le_iff.mp hr with ⟨h3, h4⟩
            refine sup_le (sup_le h3 ?_) h4
            · exact le_trans (hc2 (lt_of_le_of_lt (hsb.trans h3) h2)) (hsb.trans h3)

theorem abLoop_min_approx (O : Oracle) (eval : O.Pos → EInt → EInt → EInt × O.Pos)
    (p : O.Pos) (g : VMove → EInt)
    (heval : ∀ q a b, (eval q a b).2 = q)
    (hund : ∀ q m, O.undo (O.child q m) = q)
    (hch : ∀ (m : VMove) (a b : EInt), a < b →
      approxRel a b (eval (O.child p m) a b).1 (g m)) :
    ∀ (ms : List VMove) (alpha beta best : EInt) (bm : Option (List Char)),
      beta ≤ best → alpha < beta →
      (abLoop O eval false ms p alpha beta best bm).1 ≤ best ∧
      approxRel alpha beta (abLoop O eval false ms p alpha beta best bm).1
        (ms.foldl (fun acc m => min acc (g m)) best) := by
  intro ms
  induction ms with
  | nil =>
      intro alpha beta best bm hbb hab
      exact ⟨le_refl _, approxRel_of_eq rfl⟩
  | cons m rest ih =>
      intro alpha beta best bm hbb hab
      obtain ⟨hc1, hc2⟩ := hch m alpha beta hab
      simp only [abLoop, heval, hund, Bool.false_eq_true, if_false, List.foldl_cons]
      set s := (eval (O.child p m) alpha beta).1 with hs
      set w := g m with hw
      rw [foldl_min_acc]
      set P := rest.foldl (fun acc x => min acc (g x)) ⊤ with hP
      by_cases hlt : s < best
      · simp only [hlt, if_true]
        by_cases hcut : beta ⊓ s ≤ alpha
        · simp only [hcut, if_true]
          refine ⟨le_of_lt hlt, ?_, ?_⟩
          · intro h1
            rcases inf_le_iff.mp hcut with h3 | h3
            · exact absurd h3 hab.not_le
            · exact absurd (h1.trans_le h3) (lt_irrefl alpha)
          · intro h2
            exact le_trans (le_trans inf_le_left inf_le_right) (hc2 h2)
        · simp only [hcut, if_false]
          have hab2 : alpha < beta ⊓ s := not_le.mp hcut
          obtain ⟨hb2, hrel2⟩ := ih alpha (beta ⊓ s) s (some (encodeMove m)) inf_le_right hab2
          rw [foldl_min_acc] at hrel2
          refine ⟨le_trans hb2 (le_of_lt hlt), ?_, ?_⟩
          · intro h1
            have hr := hrel2.1 h1
            rcases le_inf_iff.mp hr with ⟨h3, h4⟩
            have hsw : s ≤ w := hc1 (lt_of_lt_of_le h1 h3)
            exact le_inf (le_inf (le_trans h3 (le_of_lt hlt)) (le_trans h3 hsw)) h4
          · intro h2
            have key : s ≤ (abLoop O eval false rest p alpha (beta ⊓ s) s
                (some (encodeMove m))).1 →
                (best ⊓ w) ⊓ P ≤ (abLoop O eval false rest p alpha (beta ⊓ s) s
                  (some (encodeMove m))).1 := by
              intro hle
              have hrs : (abLoop O eval false rest p alpha (beta ⊓ s) s
                  (some (encodeMove m))).1 = s := le_antisymm hb2 hle
              have hws : w ≤ s := hc2 (hrs ▸ h2)
              rw [hrs]
              exact le_trans (le_trans inf_le_left inf_le_right) hws
            by_cases h2' : (abLoop O eval false rest p alpha (beta ⊓ s) s
                (some (encodeMove m))).1 < beta ⊓ s
            · have hr := hrel2.2 h2'
              rcases inf_le_iff.mp hr with h3 | h3
              · exact key h3
              · exact le_trans inf_le_right h3
            · rcases inf_le_iff.mp (not_lt.mp h2') with h3 | h3
              · exact absurd (lt_of_le_of_lt h3 h2) (lt_irrefl beta)
              · exact key h3
      · simp only [hlt, if_false]
        have hbs : best ≤ s := not_lt.mp hlt
        by_cases hcut : beta ⊓ best ≤ alpha
        · simp only [hcut, if_true]
          refine ⟨le_refl best, ?_, ?_⟩
          · intro h1
            rcases inf_le_iff.mp hcut with h3 | h3
            · exact absurd h3 hab.not_le
            · exact absurd (h1.trans_le h3) (lt_irrefl alpha)
          · intro h2
            exact absurd (h2.trans_le hbb) (lt_irrefl best)
        · simp only [hcut, if_false]
          have heqb : beta ⊓ best = beta := inf_eq_left.mpr hbb
          rw [heqb]
          obtain ⟨hb2, hrel2⟩ := ih alpha beta best bm hbb hab
          rw [foldl_min_acc] at hrel2
          refine ⟨hb2, ?_, ?_⟩
          · intro h1
            have hr := hrel2.1 h1
            rcases le_inf_iff.mp hr with ⟨h3, h4⟩
            have hsw : s ≤ w := hc1 (lt_of_lt_of_le h1 (h3.trans hbs))
            exact le_inf (le_inf h3 (le_trans (h3.trans hbs) hsw)) h4
          · intro h2
            have hr := hrel2.2 h2
            rcases inf_le_iff.mp hr with h3 | h3
            · have hrb : (abLoop O eval false rest p alpha beta best bm).1 = best :=
                le_antisymm hb2 h3
              rw [hrb]
              exact le_trans inf_le_left inf_le_left
            · exact le_trans inf_le_right h3

theorem minimax_approx (O : Oracle) (shuffle : O.Pos → ℕ → List VMove → List VMove)
    (hund : ∀ q m, O.undo (O.child q m) = q)
    (hsh : ∀ p d l, (shuffle p d l).Perm l) :
    ∀ (d : ℕ) (p : O.Pos) (alpha beta : EInt) (mf : PlayerColor), alpha < beta →
      approxRel alpha beta (minimax O shuffle d p alpha beta mf).1
        (plainMinimax O d p mf) := by
  intro d
  induction d with
  | zero => intro p alpha beta mf hab; exact approxRel_of_eq rfl
  | succ d ih =>
      intro p alpha beta mf hab
      by_cases hgo : O.isGameOver p = true
      · simp only [minimax, plainMinimax, hgo, if_true]
        exact approxRel_of_eq rfl
      · have hgo' : O.isGameOver p = false := by
          cases h : O.isGameOver p
          · rfl
          · exact absurd h hgo
        simp only [minimax, plainMinimax, hgo', Bool.false_eq_true, if_false]
        by_cases ht : O.turn p = mf
        · simp only [ht, decide_True, if_true]
          have hperm := (hsh p (d+1) (O.legalMoves p)).symm
          rw [foldl_max_perm (fun m => plainMinimax O d (O.child p m) mf) hperm ⊥]
          exact (abLoop_max_approx O _ p _
            (fun q a b => minimax_pos O shuffle hund d q a b mf)
            hund
            (fun m a b h => ih (O.child p m) a b mf h)
            (shuffle p (d+1) (O.legalMoves p)) alpha beta ⊥ none bot_le hab).2
        · simp only [ht, decide_False, Bool.false_eq_true, if_false]
          have hperm := (hsh p (d+1) (O.legalMoves p)).symm
          rw [foldl_min_perm (fun m => plainMinimax O d (O.child p m) mf) hperm ⊤]
          exact (abLoop_min_approx O _ p _
            (fun q a b => minimax_pos O shuffle hund d q a b mf)
            hund
            (fun m a b h => ih (O.child p m) a b mf h)
            (shuffle p (d+1) (O.legalMoves p)) alpha beta ⊤ none le_top hab).2

/-! Frame facts about maybeFinalize. -/

theorem maybeFinalize_not_over (O : Oracle) (room : ChessRoom O)
    (h : O.isGameOver room.chess = false) : maybeFinalize O room = room := by
  simp [maybeFinalize, h]

theorem maybeFinalize_chess (O : Oracle) (room : ChessRoom O) :
    (maybeFinalize O room).chess = room.chess := by
  unfold maybeFinalize
  dsimp only
  split_ifs <;> rfl

theorem maybeFinalize_lastMove (O : Oracle) (room : ChessRoom O) :
    (maybeFinalize O room).lastMove = room.lastMove := by
  unfold maybeFinalize
  dsimp only
  split_ifs <;> rfl

theorem maybeFinalize_selection (O : Oracle) (room : ChessRoom O) :
    (maybeFinalize O room).selection = room.selection := by
  unfold maybeFinalize
  dsimp only
  split_ifs <;> rfl

theorem maybeFinalize_seatW (O : Oracle) (room : ChessRoom O) :
    (maybeFinalize O room).seatW = room.seatW := by
  unfold maybeFinalize
  dsimp only
  split_ifs <;> rfl

theorem maybeFinalize_seatB (O : Oracle) (room : ChessRoom O) :
    (maybeFinalize O room).seatB = room.seatB := by
  unfold maybeFinalize
  dsimp only
  split_ifs <;> rfl

theorem maybeFinalize_status_over (O : Oracle) (room : ChessRoom O)
    (h : O.isGameOver room.chess = true) : (maybeFinalize O room).status = .ended := by
  unfold maybeFinalize
  rw [h]
  simp only [Bool.not_true, Bool.false_eq_true, if_false]
  split_ifs <;> rfl

/-! Claim theorems. -/

/-- C1: every failing applyMove call — status not playing (reason Not
playing), seat for the side to move missing or occupied by someone else
(reason Not your turn), or oracle rejection of the move (reason Illegal
move) — returns ok false with that reason and the unchanged match; and
whenever ok is false the returned match equals the input match. -/
theorem applyMove_failure_frame (O : Oracle)
    (shuffle : O.Pos → ℕ → List VMove → List VMove) (rnd : ℕ)
    (room : ChessRoom O) (playerId : String) (uci : List Char) :
    (room.status ≠ .playing →
      applyMove O shuffle rnd room playerId uci = (⟨false, some "Not playing"⟩, room)) ∧
    (room.status = .playing →
      (∀ seat, room.seats (O.turn room.chess) = some seat → seat.playerId ≠ playerId) →
      applyMove O shuffle rnd room playerId uci = (⟨false, some "Not your turn"⟩, room)) ∧
    (∀ seat, room.status = .playing →
      room.seats (O.turn room.chess) = some seat → seat.playerId = playerId →
      O.tryMoveUci room.chess (parseUci uci) = none →
      applyMove O shuffle rnd room playerId uci = (⟨false, some "Illegal move"⟩, room)) ∧
    ((applyMove O shuffle rnd room playerId uci).1.ok = false →
      (applyMove O shuffle rnd room playerId uci).2 = room) := by
  refine ⟨?_, ?_, ?_, ?_⟩
  · intro h
    rw [applyMove, if_pos h]
  · intro h hseat
    rw [applyMove, if_neg (by simp [h])]
    cases hs : room.seats (O.turn room.chess) with
    | none => rfl
    | some seat =>
        have hne := hseat seat hs
        simp only [ne_eq, hne, not_false_eq_true, if_true]
  · intro seat h hs hpid hmv
    rw [applyMove, if_neg (by simp [h]), hs]
    simp only [hpid, ne_eq, not_true_eq_false, if_false, hmv]
  · intro hok
    by_cases h1 : room.status = .playing
    · rw [applyMove, if_neg (by simp [h1])] at hok ⊢
      cases hs : room.seats (O.turn room.chess) with
      | none => rfl
      | some seat =>
          rw [hs] at hok
          by_cases h2 : seat.playerId = playerId
          · simp only [h2, ne_eq, not_true_eq_false, if_false] at hok ⊢
            cases hmv : O.tryMoveUci room.chess (parseUci uci) with
            | none => rfl
            | some pr =>
                obtain ⟨mv2, p1⟩ := pr
                rw [hmv] at hok
                simp at hok
          · simp only [ne_eq, h2, not_false_eq_true, if_true]
    · rw [applyMove, if_pos h1]

/-- C3: on a terminal position maybeFinalize sets status ended and
classifies the outcome in priority order — checkmate (winner is the color
that just moved, the opponent of the side to move), stalemate, insufficient
material, threefold repetition, then any other draw, the draws carrying no
winner — leaving all other fields intact; on a non-terminal position the
match is unchanged. -/
theorem maybeFinalize_classification (O : Oracle) (room : ChessRoom O)
    (hw : room.winner = none) :
    (O.isGameOver room.chess = false → maybeFinalize O room = room) ∧
    (O.isGameOver room.chess = true →
      (maybeFinalize O room).status = .ended ∧
      (maybeFinalize O room).chess = room.chess ∧
      (maybeFinalize O room).seatW = room.seatW ∧
      (maybeFinalize O room).seatB = room.seatB ∧
      (maybeFinalize O room).selection = room.selection ∧
      (maybeFinalize O room).lastMove = room.lastMove ∧
      (O.isCheckmate room.chess = true →
        (maybeFinalize O room).winner = some (other (O.turn room.chess)) ∧
        (maybeFinalize O room).endReason = some "checkmate") ∧
      (O.isCheckmate room.chess = false → O.isStalemate room.chess = true →
        (maybeFinalize O room).winner = none ∧
        (maybeFinalize O room).endReason = some "stalemate") ∧
      (O.isCheckmate room.chess = false → O.isStalemate room.chess = false →
        O.isInsufficientMaterial room.chess = true →
        (maybeFinalize O room).winner = none ∧
        (maybeFinalize O room).endReason = some "insufficient material") ∧
      (O.isCheckmate room.chess = false → O.isStalemate room.chess = false →
        O.isInsufficientMaterial room.chess = false →
        O.isThreefoldRepetition room.chess = true →
        (maybeFinalize O room).winner = none ∧
        (maybeFinalize O room).endReason = some "threefold repetition") ∧
      (O.isCheckmate room.chess = false → O.isStalemate room.chess = false →
        O.isInsufficientMaterial room.chess = false →
        O.isThreefoldRepetition room.chess = false → O.isDraw room.chess = true →
        (maybeFinalize O room).winner = none ∧
        (maybeFinalize O room).endReason = some "draw")) := by
  refine ⟨maybeFinalize_not_over O room, ?_⟩
  intro h
  refine ⟨maybeFinalize_status_over O room h, maybeFinalize_chess O room,
    maybeFinalize_seatW O room, maybeFinalize_seatB O room,
    maybeFinalize_selection O room, maybeFinalize_lastMove O room, ?_, ?_, ?_, ?_, ?_⟩
  · intro hcm
    constructor <;> simp [maybeFinalize, h, hcm]
  · intro hcm hst
    constructor <;> simp [maybeFinalize, h, hcm, hst, hw]
  · intro hcm hst hins
    constructor <;> simp [maybeFinalize, h, hcm, hst, hins, hw]
  · intro hcm hst hins hth
    constructor <;> simp [maybeFinalize, h, hcm, hst, hins, hth, hw]
  · intro hcm hst hins hth hdr
    constructor <;> simp [maybeFinalize, h, hcm, hst, hins, hth, hdr, hw]

/-- C9: assignSeat is idempotent — an identity that already occupies a seat
gets ok with the color of that seat and the seat assignments (the whole
match) are unchanged, in any mode. -/
theorem assignSeat_idempotent (O : Oracle) (room : ChessRoom O) (playerId : String)
    (h : ∃ c seat, room.seats c = some seat ∧ seat.playerId = playerId) :
    (assignSeat O room playerId).1.ok = true ∧
    (assignSeat O room playerId).2 = room ∧
    (room.seatW.map Seat.playerId = some playerId →
      (assignSeat O room playerId).1.color = some .w) ∧
    (room.seatW.map Seat.playerId ≠ some playerId →
      room.seatB.map Seat.playerId = some playerId →
      (assignSeat O room playerId).1.color = some .b) := by
  obtain ⟨c, seat, hc, hpid⟩ := h
  have hwb : room.seatW.map Seat.playerId = some playerId ∨
      room.seatB.map Seat.playerId = some playerId := by
    cases c
    · left
      have hcw : room.seatW = some seat := hc
      rw [hcw]
      simp [hpid]
    · right
      have hcb : room.seatB = some seat := hc
      rw [hcb]
      simp [hpid]
  by_cases hw' : room.seatW.map Seat.playerId = some playerId
  · simp [assignSeat, hw']
  · have hb' : room.seatB.map Seat.playerId = some playerId := hwb.resolve_left hw'
    simp [assignSeat, hw', hb']

/-- C10: whenever any connected player leaves while the room is a playing
duo match, the match ends with no winner and reason opponent disconnected,
regardless of whether the leaving player occupies a seat; seats and the
position are untouched and the player is removed from the players map. -/
theorem leftWorld_duo_disconnect (O : Oracle) (st : ServerState O) (playerId : String)
    (hm : st.room.selection.mode = .duo) (hs : st.room.status = .playing) :
    (onLeftWorld O st playerId).room.status = .ended ∧
    (onLeftWorld O st playerId).room.winner = none ∧
    (onLeftWorld O st playerId).room.endReason = some "opponent disconnected" ∧
    (onLeftWorld O st playerId).room.chess = st.room.chess ∧
    (onLeftWorld O st playerId).room.seatW = st.room.seatW ∧
    (onLeftWorld O st playerId).room.seatB = st.room.seatB ∧
    (onLeftWorld O st playerId).players = st.players.filter (fun p => p ≠ playerId) := by
  simp [onLeftWorld, hm, hs]

/-- C4 counterexample: startGame performs no status check of its own — on a
match whose status is ended it resets the match to playing instead of
failing and leaving it unchanged, refuting the claim as stated. -/
theorem startGame_unguarded_counterexample :
    endedRoom.status ≠ .lobby ∧
    (startGame toyOracle endedRoom).status = .playing ∧
    startGame toyOracle endedRoom ≠ endedRoom := by
  refine ⟨by decide, rfl, ?_⟩
  intro h
  have h2 := congrArg ChessRoom.status h
  simp [startGame, endedRoom] at h2

/-- C4 amended: startGame itself is unconditional — it resets the position
to the initial layout, sets status playing and clears winner, end reason
and last move whatever the prior status; the lobby-only and canStart
restrictions are enforced by the lobby.start handler, which leaves the
state unchanged when status is not lobby and invokes startGame exactly
when the checks pass. -/
theorem startGame_reset_handler_guard (O : Oracle) (st : ServerState O)
    (playerId : String) :
    ((startGame O st.room).chess = O.initial ∧
      (startGame O st.room).status = .playing ∧
      (startGame O st.room).winner = none ∧
      (startGame O st.room).endReason = none ∧
      (startGame O st.room).lastMove = none ∧
      (startGame O st.room).seatW = st.room.seatW ∧
      (startGame O st.room).seatB = st.room.seatB ∧
      (startGame O st.room).selection = st.room.selection) ∧
    (st.room.status ≠ .lobby → handleLobbyStart O st playerId = st) ∧
    (st.room.status = .lobby → canStart O st.room = true →
      (st.room.selection.mode = .duo → lookupColor st.colors playerId = some .w) →
      handleLobbyStart O st playerId = { st with room := startGame O st.room }) := by
  refine ⟨⟨rfl, rfl, rfl, rfl, rfl, rfl, rfl, rfl⟩, ?_, ?_⟩
  · intro h
    rw [handleLobbyStart, if_neg h]
  · intro h hcs hwc
    rw [handleLobbyStart, if_pos h]
    have hcond : ¬ (st.room.selection.mode = .duo ∧
        lookupColor st.colors playerId ≠ some .w) := by
      rintro ⟨hd, hne⟩
      exact hne (hwc hd)
    rw [if_neg hcond, hcs]
    simp

/-- C5: chooseMove returns none on a terminal position and when the side to
move is not the engine color; on a non-terminal position with the engine
color to move it returns, at every difficulty, a move present in the
legal-move list of the position. -/
theorem chooseAiMove_none_or_legal (O : Oracle)
    (shuffle : O.Pos → ℕ → List VMove → List VMove) (rnd : ℕ) (f : String)
    (c : PlayerColor) (difficulty : Difficulty)
    (hund : ∀ q m, O.undo (O.child q m) = q)
    (hmn : ∀ p, O.legalMoves p = [] → O.isGameOver p = true)
    (hsh : ∀ p d l, (shuffle p d l).Perm l) :
    (O.isGameOver (O.ofFen f) = true ∨ O.turn (O.ofFen f) ≠ c →
      chooseAiMove O shuffle rnd f c difficulty = none) ∧
    (O.isGameOver (O.ofFen f) = false → O.turn (O.ofFen f) = c →
      ∃ m ∈ O.legalMoves (O.ofFen f),
        chooseAiMove O shuffle rnd f c difficulty = some (encodeMove m)) := by
  constructor
  · rintro (h | h)
    · rw [chooseAiMove.eq_def, if_pos h]
    · by_cases hg : O.isGameOver (O.ofFen f) = true
      · rw [chooseAiMove.eq_def, if_pos hg]
      · rw [chooseAiMove.eq_def, if_neg hg, if_pos h]
  · intro hgo ht
    exact chooseAiMove_some_mem O shuffle rnd f c difficulty hmn hsh hgo ht

/-- C6: with the full window, alpha-beta minimax returns exactly the plain
unpruned minimax score, for every permutation move ordering at every node:
the shuffle and the cutoffs influence only the move that is reported, never
the score. -/
theorem minimax_full_window_score (O : Oracle)
    (shuffle : O.Pos → ℕ → List VMove → List VMove)
    (hund : ∀ q m, O.undo (O.child q m) = q)
    (hsh : ∀ p d l, (shuffle p d l).Perm l)
    (d : ℕ) (p : O.Pos) (mf : PlayerColor) :
    (minimax O shuffle d p ⊥ ⊤ mf).1 = plainMinimax O d p mf := by
  have h := minimax_approx O shuffle hund hsh d p ⊥ ⊤ mf bot_lt_top
  by_cases hb : (minimax O shuffle d p ⊥ ⊤ mf).1 = ⊥
  · have h2 := h.2 (by rw [hb]; exact bot_lt_top)
    rw [hb] at h2 ⊢
    exact (le_bot_iff.mp h2).symm
  · by_cases htop : (minimax O shuffle d p ⊥ ⊤ mf).1 = ⊤
    · have h1 := h.1 (by rw [htop]; exact bot_lt_top)
      rw [htop] at h1 ⊢
      exact (top_le_iff.mp h1).symm
    · exact le_antisymm (h.1 (bot_lt_iff_ne_bot.mpr hb)) (h.2 (lt_top_iff_ne_top.mpr htop))

/-- C7: the move/undo discipline of the search — minimax hands back exactly
the position it was given, at every depth, window and color, on every exit
path including pruning breaks, so a chooseMove call leaves the caller's
position bit-for-bit intact. -/
theorem minimax_position_restored (O : Oracle)
    (shuffle : O.Pos → ℕ → List VMove → List VMove)
    (hund : ∀ q m, O.undo (O.child q m) = q)
    (d : ℕ) (p : O.Pos) (alpha beta : EInt) (mf : PlayerColor) :
    (minimax O shuffle d p alpha beta mf).2.2 = p :=
  minimax_pos O shuffle hund d p alpha beta mf

/-- C8: at easy difficulty the engine performs no search — its answer is
independent of the move-ordering shuffle and is a direct random pick over
the enumerated legal moves: when a capture exists the pick is uniform over
the captures (random index k selects exactly the k-th capture), otherwise
uniform over all legal moves (index k selects the k-th legal move). -/
theorem chooseAiMove_easy_no_search (O : Oracle)
    (shuffle : O.Pos → ℕ → List VMove → List VMove) (rnd : ℕ) (f : String)
    (c : PlayerColor)
    (hgo : O.isGameOver (O.ofFen f) = false) (ht : O.turn (O.ofFen f) = c) :
    (∀ sh1 sh2 : O.Pos → ℕ → List VMove → List VMove,
      chooseAiMove O sh1 rnd f c .easy = chooseAiMove O sh2 rnd f c .easy) ∧
    ((O.legalMoves (O.ofFen f)).filter (fun m => m.captured) ≠ [] →
      ∃ m ∈ (O.legalMoves (O.ofFen f)).filter (fun m => m.captured),
        chooseAiMove O shuffle rnd f c .easy = some (encodeMove m)) ∧
    ((O.legalMoves (O.ofFen f)).filter (fun m => m.captured) = [] →
      O.legalMoves (O.ofFen f) ≠ [] →
      ∃ m ∈ O.legalMoves (O.ofFen f),
        chooseAiMove O shuffle rnd f c .easy = some (encodeMove m)) ∧
    (∀ (k : ℕ)
      (hk : k < ((O.legalMoves (O.ofFen f)).filter (fun m => m.captured)).length),
      chooseAiMove O shuffle k f c .easy = some (encodeMove
        (((O.legalMoves (O.ofFen f)).filter (fun m => m.captured)).get ⟨k, hk⟩))) ∧
    ((O.legalMoves (O.ofFen f)).filter (fun m => m.captured) = [] →
      ∀ (k : ℕ) (hk : k < (O.legalMoves (O.ofFen f)).length),
      chooseAiMove O shuffle k f c .easy
        = some (encodeMove ((O.legalMoves (O.ofFen f)).get ⟨k, hk⟩))) := by
  have hnot : ¬ (O.isGameOver (O.ofFen f) = true) := by
    rw [hgo]
    intro hcon
    cases hcon
  refine ⟨fun sh1 sh2 => rfl, ?_, ?_, ?_, ?_⟩
  · intro hcne
    rw [chooseAiMove.eq_def, if_neg hnot, if_neg (by rw [ht]; exact fun hcon => hcon rfl)]
    dsimp only
    have hlen : ((O.legalMoves (O.ofFen f)).filter (fun m => m.captured)).length ≠ 0 := by
      intro h0
      exact hcne (List.length_eq_zero.mp h0)
    obtain ⟨x, hx, hpick⟩ := pickRandom_mem_some rnd _ hcne
    refine ⟨x, hx, ?_⟩
    rw [if_pos hlen, hpick]
    rfl
  · intro hcnil hne
    rw [chooseAiMove.eq_def, if_neg hnot, if_neg (by rw [ht]; exact fun hcon => hcon rfl)]
    dsimp only
    have hlen : ¬ (((O.legalMoves (O.ofFen f)).filter (fun m => m.captured)).length ≠ 0) := by
      rw [hcnil]
      exact fun hcon => hcon rfl
    obtain ⟨x, hx, hpick⟩ := pickRandom_mem_some rnd _ hne
    refine ⟨x, hx, ?_⟩
    rw [if_neg hlen, hpick]
    rfl
  · intro k hk
    rw [chooseAiMove.eq_def, if_neg hnot, if_neg (by rw [ht]; exact fun hcon => hcon rfl)]
    dsimp only
    have hlen : ((O.legalMoves (O.ofFen f)).filter (fun m => m.captured)).length ≠ 0 := by
      omega
    rw [if_pos hlen]
    have hmod : k % ((O.legalMoves (O.ofFen f)).filter (fun m => m.captured)).length = k :=
      Nat.mod_eq_of_lt hk
    unfold pickRandom
    rw [hmod, List.get?_eq_get hk]
    rfl
  · intro hcnil k hk
    rw [chooseAiMove.eq_def, if_neg hnot, if_neg (by rw [ht]; exact fun hcon => hcon rfl)]
    dsimp only
    have hlen : ¬ (((O.legalMoves (O.ofFen f)).filter (fun m => m.captured)).length ≠ 0) := by
      rw [hcnil]
      exact fun hcon => hcon rfl
    rw [if_neg hlen]
    have hmod : k % (O.legalMoves (O.ofFen f)).length = k := Nat.mod_eq_of_lt hk
    unfold pickRandom
    rw [hmod, List.get?_eq_get hk]
    rfl

/-- C2: in a solo match, a successful human move that leaves the position
non-terminal is answered by exactly one computer move in the same
applyMove call — the final position is exactly one legal-move application
beyond the post-human position, that move is recorded as the last move —
and the side to move is back to the human's color White; if the human's
move ended the match, the computer does not move and the position stays at
the post-human position. -/
theorem applyMove_solo_reply (O : Oracle)
    (shuffle : O.Pos → ℕ → List VMove → List VMove) (rnd : ℕ)
    (room : ChessRoom O) (playerId : String) (uci : List Char)
    (vm : VMove) (p1 : O.Pos)
    (hund : ∀ q m, O.undo (O.child q m) = q)
    (hmn : ∀ p, O.legalMoves p = [] → O.isGameOver p = true)
    (hsh : ∀ p d l, (shuffle p d l).Perm l)
    (hfen : ∀ p, O.ofFen (O.fen p) = p)
    (htry : ∀ p m, m ∈ O.legalMoves p →
      O.tryMoveUci p ⟨m.mfrom, m.mto, m.promotion⟩ = some (m, O.child p m))
    (hlen : ∀ p m, m ∈ O.legalMoves p → m.mfrom.length = 2 ∧ m.mto.length = 2)
    (hflip : ∀ p i mv q, O.tryMoveUci p i = some (mv, q) →
      O.turn q = other (O.turn p))
    (hmode : room.selection.mode = .solo)
    (hst : room.status = .playing)
    (hAI : room.seatB = some ⟨"AI", .b⟩)
    (hpid : playerId ≠ "AI")
    (hseat : ∃ seat, room.seats (O.turn room.chess) = some seat ∧
      seat.playerId = playerId)
    (hmv : O.tryMoveUci room.chess (parseUci uci) = some (vm, p1)) :
    (applyMove O shuffle rnd room playerId uci).1 = ⟨true, none⟩ ∧
    O.turn room.chess = .w ∧
    (O.isGameOver p1 = false →
      ∃ m2 ∈ O.legalMoves p1,
        (applyMove O shuffle rnd room playerId uci).2.chess = O.child p1 m2 ∧
        (applyMove O shuffle rnd room playerId uci).2.lastMove
          = some (encodeMove m2) ∧
        O.turn (applyMove O shuffle rnd room playerId uci).2.chess = .w) ∧
    (O.isGameOver p1 = true →
      (applyMove O shuffle rnd room playerId uci).2.chess = p1 ∧
      (applyMove O shuffle rnd room playerId uci).2.status = .ended) := by
  obtain ⟨seat, hs, hsp⟩ := hseat
  have hturnw : O.turn room.chess = .w := by
    cases hc : O.turn room.chess with
    | w => rfl
    | b =>
        rw [hc] at hs
        have hsb : room.seats .b = room.seatB := rfl
        rw [hsb, hAI] at hs
        injection hs with hseq
        rw [← hseq] at hsp
        exact absurd hsp.symm hpid
  have hturnp1 : O.turn p1 = .b := by
    have h := hflip _ _ _ _ hmv
    rw [hturnw] at h
    exact h
  rw [applyMove, if_neg (by simp [hst]), hs]
  dsimp only
  rw [if_neg (by simp [hsp]), hmv]
  dsimp only
  refine ⟨rfl, hturnw, ?_, ?_⟩
  · intro hng
    have hroom2 : maybeFinalize O
        { room with chess := p1, lastMove := some (encodeMove vm) }
        = { room with chess := p1, lastMove := some (encodeMove vm) } :=
      maybeFinalize_not_over O _ hng
    rw [hroom2]
    rw [if_pos (⟨hmode, hst⟩ :
      ({ room with chess := p1, lastMove := some (encodeMove vm) } :
        ChessRoom O).selection.mode = .solo ∧
      ({ room with chess := p1, lastMove := some (encodeMove vm) } :
        ChessRoom O).status = .playing)]
    dsimp only
    obtain ⟨m2, hm2, hchoose⟩ := chooseAiMove_some_mem O shuffle rnd (O.fen p1) .b
      room.selection.difficulty hmn hsh (by rw [hfen p1]; exact hng)
      (by rw [hfen p1]; exact hturnp1)
    rw [hfen p1] at hm2
    rw [hchoose]
    dsimp only
    rw [parseUci_encodeMove m2 (hlen p1 m2 hm2).1 (hlen p1 m2 hm2).2, htry p1 m2 hm2]
    dsimp only
    refine ⟨m2, hm2, ?_, ?_, ?_⟩
    · exact maybeFinalize_chess O _
    · exact maybeFinalize_lastMove O _
    · have hc2 := hflip p1 _ m2 (O.child p1 m2) (htry p1 m2 hm2)
      rw [maybeFinalize_chess O _]
      dsimp only
      rw [hc2, hturnp1]
      rfl
  · intro hg
    have hstat : (maybeFinalize O
        { room with chess := p1, lastMove := some (encodeMove vm) }).status
        = .ended := maybeFinalize_status_over O _ hg
    rw [if_neg (by
      rintro ⟨_, hcon⟩
      rw [hstat] at hcon
      cases hcon)]
    exact ⟨maybeFinalize_chess O _, hstat⟩

/-! Witnesses: each claim theorem applied at a concrete input over the toy
oracle, with every hypothesis discharged there. -/

theorem idShuffle_toy_perm : ∀ (p : ℕ) (d : ℕ) (l : List VMove),
    ((idShuffle toyOracle) p d l).Perm l := fun _ _ l => List.Perm.refl l

theorem applyMove_failure_frame_witness :
    applyMove toyOracle (idShuffle toyOracle) 0 endedRoom "H" ['a', '1', 'a', '2']
      = (⟨false, some "Not playing"⟩, endedRoom) ∧
    applyMove toyOracle (idShuffle toyOracle) 0 soloRoom "X" ['a', '1', 'a', '2']
      = (⟨false, some "Not your turn"⟩, soloRoom) ∧
    applyMove toyOracle (idShuffle toyOracle) 0 soloRoom "H" ['a', '9', 'a', '9']
      = (⟨false, some "Illegal move"⟩, soloRoom) := by
  refine ⟨?_, ?_, ?_⟩
  · exact (applyMove_failure_frame toyOracle (idShuffle toyOracle) 0 endedRoom "H"
      ['a', '1', 'a', '2']).1 (by decide)
  · exact (applyMove_failure_frame toyOracle (idShuffle toyOracle) 0 soloRoom "X"
      ['a', '1', 'a', '2']).2.1 rfl
      (fun s hs => by injection hs with h; subst h; decide)
  · exact (applyMove_failure_frame toyOracle (idShuffle toyOracle) 0 soloRoom "H"
      ['a', '9', 'a', '9']).2.2.1 ⟨"H", .w⟩ rfl rfl rfl rfl

theorem applyMove_solo_reply_witness :
    (applyMove toyOracle (idShuffle toyOracle) 0 soloRoom "H" ['a', '1', 'a', '2']).1
      = ⟨true, none⟩ ∧
    ∃ m2 ∈ toyOracle.legalMoves (1 : ℕ),
      (applyMove toyOracle (idShuffle toyOracle) 0 soloRoom "H"
          ['a', '1', 'a', '2']).2.chess = toyOracle.child (1 : ℕ) m2 ∧
      (applyMove toyOracle (idShuffle toyOracle) 0 soloRoom "H"
          ['a', '1', 'a', '2']).2.lastMove = some (encodeMove m2) ∧
      toyOracle.turn (applyMove toyOracle (idShuffle toyOracle) 0 soloRoom "H"
          ['a', '1', 'a', '2']).2.chess = .w := by
  have h := applyMove_solo_reply toyOracle (idShuffle toyOracle) 0 soloRoom "H"
    ['a', '1', 'a', '2'] (toyMove 0) (1 : ℕ)
    toy_undo_child toy_moves_nil idShuffle_toy_perm toy_ofFen_fen toy_tryMove_legal
    toy_lengths toy_turn_flip rfl rfl rfl (by decide)
    ⟨⟨"H", .w⟩, rfl, rfl⟩ rfl
  exact ⟨h.1, h.2.2.1 (by decide)⟩

theorem maybeFinalize_classification_witness :
    (maybeFinalize toyOracle { soloRoom with chess := (2 : ℕ) }).status = .ended ∧
    (maybeFinalize toyOracle { soloRoom with chess := (2 : ℕ) }).winner
      = some (other (toyOracle.turn (2 : ℕ))) ∧
    (maybeFinalize toyOracle { soloRoom with chess := (2 : ℕ) }).endReason
      = some "checkmate" ∧
    maybeFinalize toyOracle soloRoom = soloRoom := by
  have h := maybeFinalize_classification toyOracle { soloRoom with chess := (2 : ℕ) } rfl
  have h0 := maybeFinalize_classification toyOracle soloRoom rfl
  refine ⟨(h.2 (by decide)).1, ((h.2 (by decide)).2.2.2.2.2.2.1 (by decide)).1,
    ((h.2 (by decide)).2.2.2.2.2.2.1 (by decide)).2, h0.1 (by decide)⟩

theorem startGame_reset_handler_guard_witness :
    (startGame toyOracle duoRoom).status = .playing ∧
    handleLobbyStart toyOracle duoState "A" = duoState ∧
    handleLobbyStart toyOracle
        { duoState with room := { duoRoom with status := .lobby } } "A"
      = { duoState with room := startGame toyOracle { duoRoom with status := .lobby } } := by
  have h := startGame_reset_handler_guard toyOracle duoState "A"
  have h2 := startGame_reset_handler_guard toyOracle
    { duoState with room := { duoRoom with status := .lobby } } "A"
  exact ⟨h.1.2.1, h.2.1 (by decide), h2.2.2 rfl (by decide) (fun _ => by decide)⟩

theorem chooseAiMove_none_or_legal_witness :
    chooseAiMove toyOracle (idShuffle toyOracle) 0 "xx" .w .hard = none ∧
    ∃ m ∈ toyOracle.legalMoves (toyOracle.ofFen ""),
      chooseAiMove toyOracle (idShuffle toyOracle) 0 "" .w .hard
        = some (encodeMove m) := by
  have h := chooseAiMove_none_or_legal toyOracle (idShuffle toyOracle) 0 "xx" .w .hard
    toy_undo_child toy_moves_nil idShuffle_toy_perm
  have h2 := chooseAiMove_none_or_legal toyOracle (idShuffle toyOracle) 0 "" .w .hard
    toy_undo_child toy_moves_nil idShuffle_toy_perm
  exact ⟨h.1 (Or.inl (by decide)), h2.2 (by decide) (by decide)⟩

theorem minimax_full_window_score_witness :
    (minimax toyOracle (idShuffle toyOracle) 2 (0 : ℕ) ⊥ ⊤ .w).1
      = plainMinimax toyOracle 2 (0 : ℕ) .w :=
  minimax_full_window_score toyOracle (idShuffle toyOracle) toy_undo_child
    idShuffle_toy_perm 2 (0 : ℕ) .w

theorem minimax_position_restored_witness :
    (minimax toyOracle (idShuffle toyOracle) 3 (0 : ℕ) ⊥ ⊤ .w).2.2 = (0 : ℕ) :=
  minimax_position_restored toyOracle (idShuffle toyOracle) toy_undo_child 3 (0 : ℕ) ⊥ ⊤ .w

theorem chooseAiMove_easy_no_search_witness :
    ∃ m ∈ (toyOracle.legalMoves (toyOracle.ofFen "x")).filter (fun m => m.captured),
      chooseAiMove toyOracle (idShuffle toyOracle) 0 "x" .b .easy
        = some (encodeMove m) := by
  have h := chooseAiMove_easy_no_search toyOracle (idShuffle toyOracle) 0 "x" .b
    (by decide) (by decide)
  exact h.2.1 (by decide)

theorem assignSeat_idempotent_witness :
    (assignSeat toyOracle soloRoom "H").1.ok = true ∧
    (assignSeat toyOracle soloRoom "H").2 = soloRoom ∧
    (assignSeat toyOracle soloRoom "H").1.color = some .w := by
  have h := assignSeat_idempotent toyOracle soloRoom "H" ⟨.w, ⟨"H", .w⟩, rfl, rfl⟩
  exact ⟨h.1, h.2.1, h.2.2.1 (by decide)⟩

theorem leftWorld_duo_disconnect_witness :
    (onLeftWorld toyOracle duoState "S").room.status = .ended ∧
    (onLeftWorld toyOracle duoState "S").room.winner = none ∧
    (onLeftWorld toyOracle duoState "S").room.endReason
      = some "opponent disconnected" := by
  have h := leftWorld_duo_disconnect toyOracle duoState "S" rfl rfl
  exact ⟨h.1, h.2.1, h.2.2.1⟩
